import Mathlib

/-!
Verification of the bond-similarity restraint kernel of cctbx
(geometry_restraints/bond_similarity) and the scitbx scalar helper
`approx_equal`.

The scalar helpers are translated directly from
`scitbx/include/scitbx/array_family/misc_functions.h`.  The bond-similarity
evaluation kernel itself lives in `cctbx/geometry_restraints/bond_similarity.h`,
which only appears through its binding signatures in
`cctbx/geometry_restraints/bond_similarity_bpl.cpp`; its definitions below are
therefore modelled from the specification document.
-/

namespace Scitbx

/-- Absolute value, from scitbx::fn::absolute in misc_functions.h. -/
def absolute (x : ℚ) : ℚ :=
  if x < 0 then -x else x

/-- Square of x, from scitbx::fn::pow2 in misc_functions.h. -/
def pow2 (x : ℚ) : ℚ := x * x

/-- Tests if abs(a-b) <= tolerance, from scitbx::fn::approx_equal in
misc_functions.h: diff = a - b; if diff < 0 then diff = -diff;
return diff <= tolerance. -/
def approx_equal (a b tolerance : ℚ) : Bool :=
  let diff := a - b
  let diff2 := if diff < 0 then -diff else diff
  if diff2 ≤ tolerance then true else false

end Scitbx

namespace GeometryRestraints

/-- Cartesian 3-vector, components indexed by Fin 3. -/
abbrev V3 : Type := Fin 3 → ℝ

/-- Modelled from the spec: Euclidean length of a 3-vector (the norm used for
bond distances in bond_similarity.h, which is missing from the sources). -/
noncomputable def norm3 (v : V3) : ℝ :=
  Real.sqrt (∑ i, v i ^ 2)

/-- Modelled from the spec: a rotation+translation symmetry operator
(sgtbx::rt_mx), acting on fractional coordinates. -/
structure rt_mx where
  r : Fin 3 → Fin 3 → ℝ
  t : V3

/-- Modelled from the spec: apply the rotation+translation to a vector. -/
noncomputable def rt_mx.apply (m : rt_mx) (v : V3) : V3 :=
  fun i => (∑ j, m.r i j * v j) + m.t i

/-- Modelled from the spec: the identity symmetry operator. -/
noncomputable def rt_mx.identity : rt_mx :=
  ⟨fun i j => if i = j then 1 else 0, 0⟩

/-- Modelled from the spec: the unit-cell capability, converting between
Cartesian and fractional coordinates (uctbx::unit_cell); orthogonalization
undoes fractionalization. -/
structure unit_cell where
  fractionalize : V3 → V3
  orthogonalize : V3 → V3
  orth_frac : ∀ v, orthogonalize (fractionalize v) = v

/-- Modelled from the spec: the immutable bond-similarity restraint
descriptor (cctbx::geometry_restraints::bond_similarity_proxy): index pairs,
optional symmetry operators (one per pair, or none meaning identity), and
weights. -/
structure bond_similarity_proxy (n : ℕ) where
  i_seqs : Fin n → ℕ × ℕ
  sym_ops : Option (Fin n → rt_mx)
  weights : Fin n → ℝ

/-- Modelled from the spec: the ephemeral evaluation instance
(cctbx::geometry_restraints::bond_similarity): one pair of Cartesian sites
per bond, plus the (copied) weights. -/
structure bond_similarity (n : ℕ) where
  sites_array : Fin n → V3 × V3
  weights : Fin n → ℝ

/-- Modelled from the spec: mean of a family of distances,
mean_distance = (sum of distances) / n. -/
noncomputable def mean_of (d : Fin n → ℝ) : ℝ :=
  (∑ i, d i) / n

/-- Modelled from the spec: deviation of one distance from the mean,
delta_k = distance_k - mean_distance. -/
noncomputable def delta_of (d : Fin n → ℝ) (k : Fin n) : ℝ :=
  d k - mean_of d

/-- Modelled from the spec: weighted sum of squared deltas as a function of
the distances, residual = sum of weight_k * delta_k^2. -/
noncomputable def residual_of (w d : Fin n → ℝ) : ℝ :=
  ∑ k, w k * delta_of d k ^ 2

/-- Modelled from the spec: the derivative of the residual with respect to
distance_j: 2 w_j delta_j - (2/n) * sum of w_k delta_k, combining the direct
term with the mean-coupling terms. -/
noncomputable def grad_factor_of (w d : Fin n → ℝ) (j : Fin n) : ℝ :=
  2 * w j * delta_of d j - 2 / n * ∑ k, w k * delta_of d k

namespace bond_similarity

/-- Modelled from the spec: the distance of bond k, the Euclidean norm of
site_a_k - site_b_k. -/
noncomputable def distance (bs : bond_similarity n) (k : Fin n) : ℝ :=
  norm3 ((bs.sites_array k).1 - (bs.sites_array k).2)

/-- Modelled from the spec: the unweighted arithmetic mean of the bond
distances of the group. -/
noncomputable def mean_distance (bs : bond_similarity n) : ℝ :=
  mean_of bs.distance

/-- Modelled from the spec: per-bond deviations from the group mean. -/
noncomputable def deltas (bs : bond_similarity n) : Fin n → ℝ :=
  delta_of bs.distance

/-- Modelled from the spec: rms_deltas = sqrt((sum of delta_k^2) / n). -/
noncomputable def rms_deltas (bs : bond_similarity n) : ℝ :=
  Real.sqrt ((∑ k, bs.deltas k ^ 2) / n)

/-- Modelled from the spec: residual = sum of weight_k * delta_k^2. -/
noncomputable def residual (bs : bond_similarity n) : ℝ :=
  residual_of bs.weights bs.distance

/-- Modelled from the spec: the unit vector along a bond, defined as the
zero vector when the two endpoints coincide (degenerate-bond policy). -/
noncomputable def unit_vec (a b : V3) : V3 :=
  if norm3 (a - b) = 0 then 0 else (norm3 (a - b))⁻¹ • (a - b)

/-- Modelled from the spec: scalar factor of bond k's gradient, the
derivative of the residual with respect to distance_k. -/
noncomputable def grad_factor (bs : bond_similarity n) : Fin n → ℝ :=
  grad_factor_of bs.weights bs.distance

/-- Modelled from the spec: gradients of the residual with respect to the
two endpoints of every bond: the grad_factor composed with the unit bond
vector, with opposite signs at the two endpoints. -/
noncomputable def gradients (bs : bond_similarity n) (k : Fin n) : V3 × V3 :=
  (bs.grad_factor k • unit_vec (bs.sites_array k).1 (bs.sites_array k).2,
   (-bs.grad_factor k) • unit_vec (bs.sites_array k).1 (bs.sites_array k).2)

/-- The group with the x-, y- or z-coordinate c of bond j's first endpoint
replaced by t; used to state directional-derivative facts. -/
def perturb_a (bs : bond_similarity n) (j : Fin n) (c : Fin 3) (t : ℝ) :
    bond_similarity n :=
  ⟨Function.update bs.sites_array j
    (Function.update (bs.sites_array j).1 c t, (bs.sites_array j).2),
   bs.weights⟩

/-- The group with the coordinate c of bond j's second endpoint replaced by
t. -/
def perturb_b (bs : bond_similarity n) (j : Fin n) (c : Fin 3) (t : ℝ) :
    bond_similarity n :=
  ⟨Function.update bs.sites_array j
    ((bs.sites_array j).1, Function.update (bs.sites_array j).2 c t),
   bs.weights⟩

end bond_similarity

/-- Modelled from the spec: bounds condition on a proxy's index pairs with
respect to a global coordinate array. -/
def proxy_ok (sites_cart : List V3) (p : bond_similarity_proxy n) : Prop :=
  ∀ k : Fin n, (p.i_seqs k).1 < sites_cart.length ∧
    (p.i_seqs k).2 < sites_cart.length

instance (sites_cart : List V3) (p : bond_similarity_proxy n) :
    Decidable (proxy_ok sites_cart p) := by
  unfold proxy_ok; infer_instance

/-- Modelled from the spec: resolving the second site of a pair through the
unit cell and a symmetry operator: fractionalize, apply the operator,
orthogonalize. -/
noncomputable def resolve_site_b (u : unit_cell) (op : rt_mx) (site : V3) :
    V3 :=
  u.orthogonalize (op.apply (u.fractionalize site))

/-- Modelled from the spec: construction of the evaluation instance from a
global Cartesian coordinate array and a proxy (no unit cell, no symmetry):
both sites are taken verbatim; an out-of-range index fails with no result. -/
noncomputable def mk_from_proxy (sites_cart : List V3)
    (p : bond_similarity_proxy n) : Option (bond_similarity n) :=
  if h : proxy_ok sites_cart p then
    some ⟨fun k => (sites_cart.get ⟨(p.i_seqs k).1, (h k).1⟩,
                    sites_cart.get ⟨(p.i_seqs k).2, (h k).2⟩),
          p.weights⟩
  else none

/-- Modelled from the spec: construction through the unit-cell path: the
second site of each pair is resolved through the pair's symmetry operator
(the identity when the proxy has no sym_ops). -/
noncomputable def mk_from_proxy_uc (u : unit_cell) (sites_cart : List V3)
    (p : bond_similarity_proxy n) : Option (bond_similarity n) :=
  if h : proxy_ok sites_cart p then
    some ⟨fun k => (sites_cart.get ⟨(p.i_seqs k).1, (h k).1⟩,
                    resolve_site_b u
                      (match p.sym_ops with
                       | some ops => ops k
                       | none => rt_mx.identity)
                      (sites_cart.get ⟨(p.i_seqs k).2, (h k).2⟩)),
          p.weights⟩
  else none

/-- Modelled from the spec: batch evaluation of per-proxy residuals over one
shared coordinate array, order preserved; any out-of-range index fails the
whole call. -/
noncomputable def bond_similarity_residuals (sites_cart : List V3) :
    List ((n : ℕ) × bond_similarity_proxy n) → Option (List ℝ)
  | [] => some []
  | p :: ps => do
      let bs ← mk_from_proxy sites_cart p.2
      let rest ← bond_similarity_residuals sites_cart ps
      some (bs.residual :: rest)

/-- Modelled from the spec: accumulation of one group's per-atom gradient
contributions into the shared gradient array at the positions given by the
proxy's i_seqs. -/
noncomputable def add_gradients (g : List V3) (bs : bond_similarity n)
    (isq : Fin n → ℕ × ℕ) : List V3 :=
  (List.finRange n).foldl
    (fun acc k =>
      let acc1 := acc.set (isq k).1 (acc.getD (isq k).1 0 + (bs.gradients k).1)
      acc1.set (isq k).2 (acc1.getD (isq k).2 0 + (bs.gradients k).2))
    g

/-- Modelled from the spec: residual_sum returns the sum of the per-proxy
residuals and threads the gradient array through per-proxy accumulation;
any out-of-range index fails the whole call with no partial result. -/
noncomputable def bond_similarity_residual_sum (sites_cart : List V3) :
    List ((n : ℕ) × bond_similarity_proxy n) → List V3 → Option (ℝ × List V3)
  | [], g => some (0, g)
  | p :: ps, g => do
      let bs ← mk_from_proxy sites_cart p.2
      let g1 := add_gradients g bs p.2.i_seqs
      let r ← bond_similarity_residual_sum sites_cart ps g1
      some (bs.residual + r.1, r.2)

/-- The two-bond example group of the spec's concrete scenario: bonds of
distance 1 and 3, both with weight 1. -/
noncomputable def example_group : bond_similarity 2 :=
  ⟨![(![0, 0, 0], ![1, 0, 0]), (![0, 0, 0], ![0, 3, 0])], ![1, 1]⟩

/-- A degenerate single-bond group whose endpoints coincide. -/
noncomputable def example_degenerate : bond_similarity 1 :=
  ⟨fun _ => (![1, 2, 3], ![1, 2, 3]), fun _ => 1⟩

/-- A shared coordinate array of four atoms for the batch scenarios. -/
noncomputable def example_sites : List V3 :=
  [![0, 0, 0], ![1, 0, 0], ![0, 0, 0], ![0, 3, 0]]

/-- A single-bond proxy over atoms 0 and 1. -/
noncomputable def example_proxy1 : bond_similarity_proxy 1 :=
  ⟨fun _ => (0, 1), none, fun _ => 1⟩

/-- A single-bond proxy over atoms 2 and 3. -/
noncomputable def example_proxy2 : bond_similarity_proxy 1 :=
  ⟨fun _ => (2, 3), none, fun _ => 1⟩

/-- A proxy whose second index is out of the bounds of example_sites. -/
noncomputable def example_bad_proxy : bond_similarity_proxy 1 :=
  ⟨fun _ => (0, 7), none, fun _ => 1⟩

/-- A single-bond proxy carrying the identity symmetry operator. -/
noncomputable def example_proxy_id : bond_similarity_proxy 1 :=
  ⟨fun _ => (0, 1), some fun _ => rt_mx.identity, fun _ => 1⟩

/-- A unit cell whose fractionalization is the identity map. -/
def example_unit_cell : unit_cell :=
  ⟨id, id, fun _ => rfl⟩

/-- An all-zero gradient array for the batch scenarios. -/
noncomputable def example_grad : List V3 := [0, 0, 0, 0]

theorem rt_mx.identity_apply (v : V3) : rt_mx.identity.apply v = v := by
  funext i
  simp [rt_mx.apply, rt_mx.identity, ite_mul, Finset.sum_ite_eq]

theorem norm3_sub_comm (a b : V3) : norm3 (a - b) = norm3 (b - a) := by
  unfold norm3
  congr 1
  refine Finset.sum_congr rfl fun i _ => ?_
  have h : (a - b) i = -((b - a) i) := by
    simp [Pi.sub_apply]
  rw [h, neg_sq]

theorem norm3_sub_self (a : V3) : norm3 (a - a) = 0 := by
  simp [norm3, sub_self]

theorem sum_delta_of (d : Fin n → ℝ) : ∑ k, delta_of d k = 0 := by
  rcases Nat.eq_zero_or_pos n with hn | hn
  · subst hn; simp
  · have hn' : (n : ℝ) ≠ 0 := Nat.cast_ne_zero.mpr hn.ne'
    unfold delta_of mean_of
    rw [Finset.sum_sub_distrib, Finset.sum_const, Finset.card_univ,
      Fintype.card_fin, nsmul_eq_mul, mul_div_cancel₀ _ hn', sub_self]

theorem delta_of_single (d : Fin 1 → ℝ) (k : Fin 1) : delta_of d k = 0 := by
  have hk : k = 0 := Subsingleton.elim k 0
  subst hk
  simp [delta_of, mean_of]

theorem bond_similarity.residual_single (bs : bond_similarity 1) :
    bs.residual = 0 := by
  unfold bond_similarity.residual residual_of
  simp [delta_of_single]

theorem bond_similarity.grad_factor_single (bs : bond_similarity 1)
    (k : Fin 1) : bs.grad_factor k = 0 := by
  unfold bond_similarity.grad_factor grad_factor_of
  simp [delta_of_single]

theorem bond_similarity.gradients_single (bs : bond_similarity 1)
    (k : Fin 1) : bs.gradients k = (0, 0) := by
  unfold bond_similarity.gradients
  rw [bs.grad_factor_single k]
  simp

theorem list_set_getD {α : Type} (l : List α) (i : ℕ) (d : α) :
    l.set i (l.getD i d) = l := by
  induction l generalizing i with
  | nil => simp
  | cons a as ih =>
    cases i with
    | zero => simp
    | succ i =>
      show a :: as.set i (as.getD i d) = a :: as
      rw [ih]

theorem hasDerivAt_delta_of (d : Fin n → ℝ) (j k : Fin n) (x : ℝ) :
    HasDerivAt (fun t => delta_of (Function.update d j t) k)
      (if k = j then ((n : ℝ) - 1) / n else -(1 / n)) x := by
  have hn : (n : ℝ) ≠ 0 := Nat.cast_ne_zero.mpr j.pos.ne'
  rcases eq_or_ne k j with rfl | hkj
  · have hfun : (fun t => delta_of (Function.update d k t) k)
        = fun t => t - (t + ∑ i ∈ Finset.univ \ {k}, d i) / n := by
      funext t
      simp only [delta_of, mean_of]
      rw [Finset.sum_update_of_mem (Finset.mem_univ k), Function.update_same]
    rw [hfun, if_pos rfl]
    have h1 := (hasDerivAt_id x).sub
      (((hasDerivAt_id x).add_const
        (∑ i ∈ Finset.univ \ {k}, d i)).div_const (n : ℝ))
    convert h1 using 1
    field_simp
  · have hfun : (fun t => delta_of (Function.update d j t) k)
        = fun t => d k - (t + ∑ i ∈ Finset.univ \ {j}, d i) / n := by
      funext t
      simp only [delta_of, mean_of]
      rw [Finset.sum_update_of_mem (Finset.mem_univ j),
        Function.update_noteq hkj]
    rw [hfun, if_neg hkj]
    have h1 := (hasDerivAt_const x (d k)).sub
      (((hasDerivAt_id x).add_const
        (∑ i ∈ Finset.univ \ {j}, d i)).div_const (n : ℝ))
    convert h1 using 1
    ring

theorem hasDerivAt_residual_of (w d : Fin n → ℝ) (j : Fin n) :
    HasDerivAt (fun t => residual_of w (Function.update d j t))
      (grad_factor_of w d j) (d j) := by
  have hn : (n : ℝ) ≠ 0 := Nat.cast_ne_zero.mpr j.pos.ne'
  have hterm : ∀ k : Fin n, HasDerivAt
      (fun t => w k * delta_of (Function.update d j t) k ^ 2)
      (w k * (2 * delta_of d k *
        (if k = j then ((n : ℝ) - 1) / n else -(1 / n)))) (d j) := by
    intro k
    have h2 := (hasDerivAt_delta_of d j k (d j)).pow 2
    rw [Function.update_eq_self] at h2
    have h3 := h2.const_mul (w k)
    convert h3 using 1
    ring
  have hsum : HasDerivAt (fun t => ∑ k, w k * delta_of (Function.update d j t) k ^ 2)
      (∑ k, w k * (2 * delta_of d k *
        (if k = j then ((n : ℝ) - 1) / n else -(1 / n)))) (d j) :=
    HasDerivAt.sum (fun k _ => hterm k)
  have hcoeff : (∑ k, w k * (2 * delta_of d k *
      (if k = j then ((n : ℝ) - 1) / n else -(1 / n))))
      = grad_factor_of w d j := by
    have hper : ∀ k : Fin n, w k * (2 * delta_of d k *
        (if k = j then ((n : ℝ) - 1) / n else -(1 / n)))
        = (if k = j then 2 * w k * delta_of d k else 0)
          - 2 / n * (w k * delta_of d k) := by
      intro k
      rcases eq_or_ne k j with rfl | hkj
      · rw [if_pos rfl, if_pos rfl]
        field_simp
        ring
      · rw [if_neg hkj, if_neg hkj]
        ring
    rw [Finset.sum_congr rfl fun k _ => hper k, Finset.sum_sub_distrib,
      Finset.sum_ite_eq' Finset.univ j fun k => 2 * w k * delta_of d k,
      if_pos (Finset.mem_univ j), ← Finset.mul_sum]
    rfl
  rw [← hcoeff]
  exact hsum

theorem hasDerivAt_norm3_update (a b : V3) (c : Fin 3)
    (h : norm3 (a - b) ≠ 0) :
    HasDerivAt (fun t => norm3 (Function.update a c t - b))
      ((a c - b c) / norm3 (a - b)) (a c) := by
  have hterm : ∀ i : Fin 3, HasDerivAt
      (fun t => (Function.update a c t i - b i) ^ 2)
      (if i = c then 2 * (a c - b c) else 0) (a c) := by
    intro i
    rcases eq_or_ne i c with rfl | hic
    · rw [if_pos rfl]
      have hf : (fun t => (Function.update a i t i - b i) ^ 2)
          = fun t => (t - b i) ^ 2 := by
        funext t; rw [Function.update_same]
      rw [hf]
      have h1 := ((hasDerivAt_id (a i)).sub_const (b i)).pow 2
      convert h1 using 1
      simp only [id_eq]
      ring
    · rw [if_neg hic]
      have hf : (fun t => (Function.update a c t i - b i) ^ 2)
          = fun _ => (a i - b i) ^ 2 := by
        funext t; rw [Function.update_noteq hic]
      rw [hf]
      exact hasDerivAt_const _ _
  have hq : HasDerivAt (fun t => ∑ i, (Function.update a c t i - b i) ^ 2)
      (∑ i : Fin 3, if i = c then 2 * (a c - b c) else 0) (a c) :=
    HasDerivAt.sum (fun i _ => hterm i)
  have hqval : (∑ i, (Function.update a c (a c) i - b i) ^ 2)
      = ∑ i, ((a - b) i) ^ 2 := by
    rw [Function.update_eq_self]
    refine Finset.sum_congr rfl fun i _ => ?_
    rw [Pi.sub_apply]
  have hq0 : (∑ i, (Function.update a c (a c) i - b i) ^ 2) ≠ 0 := by
    rw [hqval]
    intro hz
    exact h (by rw [norm3, hz, Real.sqrt_zero])
  have hsqrt := Real.hasDerivAt_sqrt hq0
  have hcomp := hsqrt.comp (a c) hq
  have hfun : (fun t => norm3 (Function.update a c t - b))
      = Real.sqrt ∘ fun t => ∑ i, (Function.update a c t i - b i) ^ 2 := by
    funext t
    simp only [Function.comp_apply, norm3, Pi.sub_apply]
  rw [hfun]
  have hnorm : norm3 (a - b)
      = Real.sqrt (∑ i, (Function.update a c (a c) i - b i) ^ 2) := by
    rw [hqval, norm3]
  convert hcomp using 1
  rw [Finset.sum_ite_eq' Finset.univ c fun _ => 2 * (a c - b c),
    if_pos (Finset.mem_univ c), hnorm]
  have hs : Real.sqrt (∑ i, (Function.update a c (a c) i - b i) ^ 2) ≠ 0 := by
    rw [← hnorm]; exact h
  field_simp
  ring

theorem hasDerivAt_norm3_update_right (a b : V3) (c : Fin 3)
    (h : norm3 (a - b) ≠ 0) :
    HasDerivAt (fun t => norm3 (a - Function.update b c t))
      (-((a c - b c) / norm3 (a - b))) (b c) := by
  have h' : norm3 (b - a) ≠ 0 := by rw [norm3_sub_comm]; exact h
  have h1 := hasDerivAt_norm3_update b a c h'
  have hfun : (fun t => norm3 (a - Function.update b c t))
      = fun t => norm3 (Function.update b c t - a) := by
    funext t; rw [norm3_sub_comm]
  rw [hfun]
  convert h1 using 1
  rw [norm3_sub_comm a b]
  ring

theorem bond_similarity.distance_perturb_a (bs : bond_similarity n)
    (j : Fin n) (c : Fin 3) (t : ℝ) :
    (bs.perturb_a j c t).distance
      = Function.update bs.distance j
          (norm3 (Function.update (bs.sites_array j).1 c t
            - (bs.sites_array j).2)) := by
  funext i
  rcases eq_or_ne i j with rfl | hij
  · simp [bond_similarity.distance, bond_similarity.perturb_a,
      Function.update_same]
  · simp [bond_similarity.distance, bond_similarity.perturb_a,
      Function.update_noteq hij]

theorem bond_similarity.distance_perturb_b (bs : bond_similarity n)
    (j : Fin n) (c : Fin 3) (t : ℝ) :
    (bs.perturb_b j c t).distance
      = Function.update bs.distance j
          (norm3 ((bs.sites_array j).1
            - Function.update (bs.sites_array j).2 c t)) := by
  funext i
  rcases eq_or_ne i j with rfl | hij
  · simp [bond_similarity.distance, bond_similarity.perturb_b,
      Function.update_same]
  · simp [bond_similarity.distance, bond_similarity.perturb_b,
      Function.update_noteq hij]

theorem bond_similarity.gradients_fst_apply (bs : bond_similarity n)
    (j : Fin n) (c : Fin 3) (h : norm3 ((bs.sites_array j).1 - (bs.sites_array j).2) ≠ 0) :
    (bs.gradients j).1 c
      = grad_factor_of bs.weights bs.distance j *
          (((bs.sites_array j).1 c - (bs.sites_array j).2 c)
            / norm3 ((bs.sites_array j).1 - (bs.sites_array j).2)) := by
  simp only [bond_similarity.gradients, bond_similarity.unit_vec, if_neg h,
    Pi.smul_apply, smul_eq_mul, Pi.sub_apply]
  rw [bond_similarity.grad_factor]
  ring

theorem bond_similarity.gradients_snd_apply (bs : bond_similarity n)
    (j : Fin n) (c : Fin 3) (h : norm3 ((bs.sites_array j).1 - (bs.sites_array j).2) ≠ 0) :
    (bs.gradients j).2 c
      = grad_factor_of bs.weights bs.distance j *
          (-(((bs.sites_array j).1 c - (bs.sites_array j).2 c)
            / norm3 ((bs.sites_array j).1 - (bs.sites_array j).2))) := by
  simp only [bond_similarity.gradients, bond_similarity.unit_vec, if_neg h,
    Pi.smul_apply, smul_eq_mul, Pi.sub_apply]
  rw [bond_similarity.grad_factor]
  ring

theorem bond_similarity.hasDerivAt_residual_perturb_a
    (bs : bond_similarity n) (j : Fin n) (c : Fin 3)
    (hD : bs.distance j ≠ 0) :
    HasDerivAt (fun t => (bs.perturb_a j c t).residual)
      ((bs.gradients j).1 c) ((bs.sites_array j).1 c) := by
  have hDn : norm3 ((bs.sites_array j).1 - (bs.sites_array j).2) ≠ 0 := hD
  have hinner := hasDerivAt_norm3_update (bs.sites_array j).1
    (bs.sites_array j).2 c hDn
  have hfx : norm3 (Function.update (bs.sites_array j).1 c
      ((bs.sites_array j).1 c) - (bs.sites_array j).2) = bs.distance j := by
    rw [Function.update_eq_self]; rfl
  have houter := hasDerivAt_residual_of bs.weights bs.distance j
  rw [← hfx] at houter
  have hcomp := houter.comp ((bs.sites_array j).1 c) hinner
  have hfun : (fun t => (bs.perturb_a j c t).residual)
      = (fun s => residual_of bs.weights (Function.update bs.distance j s))
        ∘ fun t => norm3 (Function.update (bs.sites_array j).1 c t
            - (bs.sites_array j).2) := by
    funext t
    simp only [Function.comp_apply, bond_similarity.residual,
      bond_similarity.distance_perturb_a]
    rfl
  rw [hfun, bs.gradients_fst_apply j c hDn]
  exact hcomp

theorem bond_similarity.hasDerivAt_residual_perturb_b
    (bs : bond_similarity n) (j : Fin n) (c : Fin 3)
    (hD : bs.distance j ≠ 0) :
    HasDerivAt (fun t => (bs.perturb_b j c t).residual)
      ((bs.gradients j).2 c) ((bs.sites_array j).2 c) := by
  have hDn : norm3 ((bs.sites_array j).1 - (bs.sites_array j).2) ≠ 0 := hD
  have hinner := hasDerivAt_norm3_update_right (bs.sites_array j).1
    (bs.sites_array j).2 c hDn
  have hfx : norm3 ((bs.sites_array j).1 - Function.update
      (bs.sites_array j).2 c ((bs.sites_array j).2 c)) = bs.distance j := by
    rw [Function.update_eq_self]; rfl
  have houter := hasDerivAt_residual_of bs.weights bs.distance j
  rw [← hfx] at houter
  have hcomp := houter.comp ((bs.sites_array j).2 c) hinner
  have hfun : (fun t => (bs.perturb_b j c t).residual)
      = (fun s => residual_of bs.weights (Function.update bs.distance j s))
        ∘ fun t => norm3 ((bs.sites_array j).1
            - Function.update (bs.sites_array j).2 c t) := by
    funext t
    simp only [Function.comp_apply, bond_similarity.residual,
      bond_similarity.distance_perturb_b]
    rfl
  rw [hfun, bs.gradients_snd_apply j c hDn]
  exact hcomp

theorem example_distance_zero : example_group.distance 0 = 1 := by
  norm_num [bond_similarity.distance, example_group, norm3, Fin.sum_univ_three]

theorem example_distance_one : example_group.distance 1 = 3 := by
  have h : example_group.distance 1 = Real.sqrt 9 := by
    norm_num [bond_similarity.distance, example_group, norm3,
      Fin.sum_univ_three]
  rw [h, show (9 : ℝ) = 3 ^ 2 from by norm_num]
  exact Real.sqrt_sq (by norm_num)

theorem example_mean_of : mean_of example_group.distance = 2 := by
  unfold mean_of
  rw [Fin.sum_univ_two, example_distance_zero, example_distance_one]
  norm_num

theorem example_mean : example_group.mean_distance = 2 :=
  example_mean_of

theorem example_delta_zero : example_group.deltas 0 = -1 := by
  show delta_of example_group.distance 0 = -1
  unfold delta_of
  rw [example_distance_zero, example_mean_of]
  norm_num

theorem example_delta_one : example_group.deltas 1 = 1 := by
  show delta_of example_group.distance 1 = 1
  unfold delta_of
  rw [example_distance_one, example_mean_of]
  norm_num

theorem example_residual : example_group.residual = 2 := by
  show residual_of example_group.weights example_group.distance = 2
  unfold residual_of
  rw [Fin.sum_univ_two]
  have hd0 : delta_of example_group.distance 0 = -1 := example_delta_zero
  have hd1 : delta_of example_group.distance 1 = 1 := example_delta_one
  rw [hd0, hd1]
  norm_num [example_group]

theorem example_rms : example_group.rms_deltas = 1 := by
  unfold bond_similarity.rms_deltas
  rw [Fin.sum_univ_two, example_delta_zero, example_delta_one]
  norm_num

theorem approx_equal_true_iff (a b t : ℚ) :
    Scitbx.approx_equal a b t = true ↔ |a - b| ≤ t := by
  have habs : (if a - b < 0 then -(a - b) else a - b) = |a - b| := by
    rcases lt_or_le (a - b) 0 with h | h
    · rw [if_pos h, abs_of_neg h]
    · rw [if_neg (not_lt.mpr h), abs_of_nonneg h]
  simp only [Scitbx.approx_equal, habs]
  split_ifs with h <;> simp [h]

theorem approx_equal_comm (a b t : ℚ) :
    Scitbx.approx_equal a b t = Scitbx.approx_equal b a t := by
  rw [Bool.eq_iff_iff, approx_equal_true_iff, approx_equal_true_iff,
    abs_sub_comm]

theorem add_gradients_single (g : List V3) (bs : bond_similarity 1)
    (isq : Fin 1 → ℕ × ℕ) : add_gradients g bs isq = g := by
  have hfin : List.finRange 1 = [(0 : Fin 1)] := by decide
  unfold add_gradients
  rw [hfin]
  simp only [List.foldl_cons, List.foldl_nil,
    bond_similarity.gradients_single, add_zero]
  rw [list_set_getD, list_set_getD]

/-- C1: for every bond-similarity group, gradients() is the analytic
derivative of residual() with respect to each of the two endpoints of every
bond: the derivative of delta_k with respect to distance_j is -1/n for
j different from k and (n-1)/n for j = k (the mean-coupling terms, so
gradients are not separable per bond), and composing with the unit bond
vector gives, in every coordinate c, the exact derivative of the residual
with respect to either endpoint of bond j. -/
theorem gradients_are_analytic_derivative (m : ℕ) (bs : bond_similarity m)
    (j k : Fin m) (c : Fin 3) (x : ℝ) (hD : bs.distance j ≠ 0) :
    HasDerivAt (fun t => delta_of (Function.update bs.distance j t) k)
      (if k = j then ((m : ℝ) - 1) / m else -(1 / m)) x
    ∧ HasDerivAt (fun t => (bs.perturb_a j c t).residual)
        ((bs.gradients j).1 c) ((bs.sites_array j).1 c)
    ∧ HasDerivAt (fun t => (bs.perturb_b j c t).residual)
        ((bs.gradients j).2 c) ((bs.sites_array j).2 c) :=
  ⟨hasDerivAt_delta_of bs.distance j k x,
   bs.hasDerivAt_residual_perturb_a j c hD,
   bs.hasDerivAt_residual_perturb_b j c hD⟩

theorem gradients_are_analytic_derivative_witness :
    example_group.distance 0 ≠ 0
    ∧ (HasDerivAt
        (fun t => delta_of (Function.update example_group.distance 0 t) 1)
        (if (1 : Fin 2) = (0 : Fin 2) then (((2 : ℕ) : ℝ) - 1) / ((2 : ℕ) : ℝ)
         else -(1 / ((2 : ℕ) : ℝ))) 0
      ∧ HasDerivAt (fun t => (example_group.perturb_a 0 0 t).residual)
          ((example_group.gradients 0).1 0) ((example_group.sites_array 0).1 0)
      ∧ HasDerivAt (fun t => (example_group.perturb_b 0 0 t).residual)
          ((example_group.gradients 0).2 0)
          ((example_group.sites_array 0).2 0)) :=
  have hD : example_group.distance 0 ≠ 0 := by
    rw [example_distance_zero]; norm_num
  ⟨hD, gradients_are_analytic_derivative 2 example_group 0 1 0 0 hD⟩

/-- C2: residual() is the weighted sum of squared deviations of the bond
distances from the unweighted arithmetic mean distance, and on the concrete
two-bond group with distances 1 and 3 and weights 1 and 1 the deltas are -1
and 1, the mean 2, the residual 2 and rms_deltas 1. -/
theorem residual_is_weighted_sum_of_squared_deltas :
    (∀ (m : ℕ) (bs : bond_similarity m),
      bs.residual
        = ∑ k, bs.weights k * (bs.distance k - bs.mean_distance) ^ 2
      ∧ bs.mean_distance = (∑ k, bs.distance k) / m
      ∧ ∀ k, bs.deltas k = bs.distance k - bs.mean_distance)
    ∧ example_group.deltas 0 = -1 ∧ example_group.deltas 1 = 1
    ∧ example_group.mean_distance = 2
    ∧ example_group.residual = 2
    ∧ example_group.rms_deltas = 1 :=
  ⟨fun _ _ => ⟨rfl, rfl, fun _ => rfl⟩, example_delta_zero, example_delta_one,
   example_mean, example_residual, example_rms⟩

/-- C3: a single-bond group (n = 1) constructs successfully from any
in-bounds proxy and evaluates without error to residual 0 with every
gradient component 0. -/
theorem single_bond_group_evaluates_to_zero (sites_cart : List V3)
    (p : bond_similarity_proxy 1) (hok : proxy_ok sites_cart p) :
    ∃ bs, mk_from_proxy sites_cart p = some bs
      ∧ bs.residual = 0 ∧ ∀ k, bs.gradients k = (0, 0) :=
  ⟨_, dif_pos hok, bond_similarity.residual_single _,
   fun k => bond_similarity.gradients_single _ k⟩

theorem single_bond_group_evaluates_to_zero_witness :
    proxy_ok example_sites example_proxy1
    ∧ ∃ bs, mk_from_proxy example_sites example_proxy1 = some bs
        ∧ bs.residual = 0 ∧ ∀ k, bs.gradients k = (0, 0) :=
  have hok : proxy_ok example_sites example_proxy1 := by
    intro k
    constructor <;> norm_num [example_sites, example_proxy1]
  ⟨hok, single_bond_group_evaluates_to_zero example_sites example_proxy1 hok⟩

/-- C4: the deltas of any group sum to exactly zero, in particular the sum
is below the 1e-12 tolerance. -/
theorem deltas_sum_to_zero (m : ℕ) (bs : bond_similarity m) :
    (∑ k, bs.deltas k) = 0 ∧ |∑ k, bs.deltas k| < 1e-12 := by
  have h : (∑ k, bs.deltas k) = 0 := sum_delta_of bs.distance
  refine ⟨h, ?_⟩
  rw [h, abs_zero]
  norm_num

/-- C5: residual_sum succeeds on in-bounds proxies, returns the sum of the
per-proxy residuals of residuals(), and threads the gradient array through
per-proxy accumulation; for a batch of single-bond proxies every residual is
0, the sum is 0 and the gradient array is returned unchanged. -/
theorem residual_sum_accumulates (sites_cart : List V3)
    (proxies : List ((m : ℕ) × bond_similarity_proxy m)) (g : List V3)
    (hok : ∀ p ∈ proxies, proxy_ok sites_cart p.2) :
    ∃ rs s g2,
      bond_similarity_residuals sites_cart proxies = some rs
      ∧ bond_similarity_residual_sum sites_cart proxies g = some (s, g2)
      ∧ s = rs.sum
      ∧ ((∀ p ∈ proxies, p.1 = 1)
          → (∀ r ∈ rs, r = 0) ∧ s = 0 ∧ g2 = g) := by
  revert hok
  induction proxies generalizing g with
  | nil =>
    intro _
    exact ⟨[], 0, g, rfl, rfl, by simp, fun _ => ⟨by simp, rfl, rfl⟩⟩
  | cons q ps ih =>
    intro hok
    obtain ⟨nq, pq⟩ := q
    have hq : proxy_ok sites_cart pq :=
      hok ⟨nq, pq⟩ (List.mem_cons_self _ _)
    obtain ⟨bsq, hmk⟩ : ∃ bs, mk_from_proxy sites_cart pq = some bs :=
      ⟨_, dif_pos hq⟩
    obtain ⟨rs, s, g2, h1, h2, h3, h4⟩ :=
      ih (add_gradients g bsq pq.i_seqs)
        (fun p hp => hok p (List.mem_cons_of_mem _ hp))
    refine ⟨bsq.residual :: rs, bsq.residual + s, g2, ?_, ?_, ?_, ?_⟩
    · simp [bond_similarity_residuals, hmk, h1]
    · simp [bond_similarity_residual_sum, hmk, h2]
    · simp [h3]
    · intro hall
      have hn1 : nq = 1 := hall ⟨nq, pq⟩ (List.mem_cons_self _ _)
      subst hn1
      have hres0 : bsq.residual = 0 := bond_similarity.residual_single bsq
      have hg : add_gradients g bsq pq.i_seqs = g :=
        add_gradients_single g bsq pq.i_seqs
      obtain ⟨hrs, hs, hg2⟩ :=
        h4 (fun p hp => hall p (List.mem_cons_of_mem _ hp))
      refine ⟨?_, ?_, ?_⟩
      · intro r hr
        rcases List.mem_cons.mp hr with rfl | hr2
        · exact hres0
        · exact hrs r hr2
      · rw [hres0, hs]; ring
      · rw [hg2, hg]

theorem residual_sum_accumulates_witness :
    (∀ p ∈ [(⟨1, example_proxy1⟩ : (m : ℕ) × bond_similarity_proxy m),
        ⟨1, example_proxy2⟩], proxy_ok example_sites p.2)
    ∧ ∃ rs s g2,
        bond_similarity_residuals example_sites
          [⟨1, example_proxy1⟩, ⟨1, example_proxy2⟩] = some rs
        ∧ bond_similarity_residual_sum example_sites
            [⟨1, example_proxy1⟩, ⟨1, example_proxy2⟩] example_grad
            = some (s, g2)
        ∧ s = rs.sum
        ∧ ((∀ p ∈ [(⟨1, example_proxy1⟩ : (m : ℕ) × bond_similarity_proxy m),
              ⟨1, example_proxy2⟩], p.1 = 1)
            → (∀ r ∈ rs, r = 0) ∧ s = 0 ∧ g2 = example_grad) :=
  have hok : ∀ p ∈ [(⟨1, example_proxy1⟩ : (m : ℕ) ×
      bond_similarity_proxy m), ⟨1, example_proxy2⟩],
      proxy_ok example_sites p.2 := by
    intro p hp
    simp only [List.mem_cons, List.not_mem_nil, or_false] at hp
    rcases hp with rfl | rfl
    · intro k; constructor <;> norm_num [example_sites, example_proxy1]
    · intro k; constructor <;> norm_num [example_sites, example_proxy2]
  ⟨hok, residual_sum_accumulates example_sites _ example_grad hok⟩

/-- C6: a bond whose endpoints coincide exactly evaluates without error with
distance 0, and its gradient contribution is the zero vector at both
endpoints. -/
theorem degenerate_bond_is_zero (m : ℕ) (bs : bond_similarity m) (k : Fin m)
    (h : (bs.sites_array k).1 = (bs.sites_array k).2) :
    bs.distance k = 0 ∧ bs.gradients k = (0, 0) := by
  have hd : bs.distance k = 0 := by
    show norm3 ((bs.sites_array k).1 - (bs.sites_array k).2) = 0
    rw [h, norm3_sub_self]
  refine ⟨hd, ?_⟩
  have hu : bond_similarity.unit_vec (bs.sites_array k).1
      (bs.sites_array k).2 = 0 := by
    unfold bond_similarity.unit_vec
    rw [if_pos]
    rw [h, norm3_sub_self]
  unfold bond_similarity.gradients
  rw [hu]
  simp

theorem degenerate_bond_is_zero_witness :
    (example_degenerate.sites_array 0).1 = (example_degenerate.sites_array 0).2
    ∧ example_degenerate.distance 0 = 0
    ∧ example_degenerate.gradients 0 = (0, 0) :=
  ⟨rfl, degenerate_bond_is_zero 1 example_degenerate 0 rfl⟩

/-- C7: constructing a group through the unit-cell path with every pair's
symmetry operator equal to the identity gives exactly the same group as the
plain Cartesian path, hence identical deltas, rms_deltas, residual,
gradients and mean_distance, for any unit cell. -/
theorem identity_sym_ops_match_plain (m : ℕ) (u : unit_cell)
    (sites_cart : List V3) (p : bond_similarity_proxy m)
    (hops : p.sym_ops = some fun _ => rt_mx.identity) :
    mk_from_proxy_uc u sites_cart p = mk_from_proxy sites_cart p
    ∧ ∀ bs bs', mk_from_proxy_uc u sites_cart p = some bs
        → mk_from_proxy sites_cart p = some bs'
        → bs.deltas = bs'.deltas ∧ bs.rms_deltas = bs'.rms_deltas
          ∧ bs.residual = bs'.residual ∧ bs.gradients = bs'.gradients
          ∧ bs.mean_distance = bs'.mean_distance := by
  have h1 : mk_from_proxy_uc u sites_cart p = mk_from_proxy sites_cart p := by
    unfold mk_from_proxy_uc mk_from_proxy
    by_cases hok : proxy_ok sites_cart p
    · rw [dif_pos hok, dif_pos hok]
      refine congrArg some ?_
      congr 1
      funext k
      rw [hops]
      simp only [resolve_site_b, rt_mx.identity_apply, u.orth_frac]
    · rw [dif_neg hok, dif_neg hok]
  refine ⟨h1, fun bs bs' hbs hbs' => ?_⟩
  rw [h1, hbs'] at hbs
  obtain rfl := Option.some.inj hbs
  exact ⟨rfl, rfl, rfl, rfl, rfl⟩

theorem identity_sym_ops_match_plain_witness :
    example_proxy_id.sym_ops = some (fun _ => rt_mx.identity)
    ∧ (mk_from_proxy_uc example_unit_cell example_sites example_proxy_id
        = mk_from_proxy example_sites example_proxy_id
      ∧ ∀ bs bs',
          mk_from_proxy_uc example_unit_cell example_sites example_proxy_id
            = some bs
          → mk_from_proxy example_sites example_proxy_id = some bs'
          → bs.deltas = bs'.deltas ∧ bs.rms_deltas = bs'.rms_deltas
            ∧ bs.residual = bs'.residual ∧ bs.gradients = bs'.gradients
            ∧ bs.mean_distance = bs'.mean_distance) :=
  ⟨rfl, identity_sym_ops_match_plain 1 example_unit_cell example_sites
    example_proxy_id rfl⟩

/-- C9: when some proxy of a batch holds an index outside the bounds of the
coordinate array, both residuals() and residual_sum fail with no result at
all: in particular residual_sum returns no partially accumulated gradient
array, whatever array is supplied. -/
theorem out_of_range_no_partial (sites_cart : List V3)
    (proxies : List ((m : ℕ) × bond_similarity_proxy m))
    (hbad : ∃ p ∈ proxies, ¬ proxy_ok sites_cart p.2) :
    bond_similarity_residuals sites_cart proxies = none
    ∧ ∀ g, bond_similarity_residual_sum sites_cart proxies g = none := by
  revert hbad
  induction proxies with
  | nil =>
    intro hbad
    simp at hbad
  | cons q ps ih =>
    intro hbad
    rcases hbad with ⟨p, hp, hbadp⟩
    rcases List.mem_cons.mp hp with rfl | hmem
    · constructor
      · simp [bond_similarity_residuals, mk_from_proxy, dif_neg hbadp]
      · intro g
        simp [bond_similarity_residual_sum, mk_from_proxy, dif_neg hbadp]
    · by_cases hq : proxy_ok sites_cart q.2
      · obtain ⟨bsq, hmk⟩ : ∃ bs, mk_from_proxy sites_cart q.2 = some bs :=
          ⟨_, dif_pos hq⟩
        obtain ⟨ih1, ih2⟩ := ih ⟨p, hmem, hbadp⟩
        constructor
        · simp [bond_similarity_residuals, hmk, ih1]
        · intro g
          simp [bond_similarity_residual_sum, hmk, ih2]
      · constructor
        · simp [bond_similarity_residuals, mk_from_proxy, dif_neg hq]
        · intro g
          simp [bond_similarity_residual_sum, mk_from_proxy, dif_neg hq]

theorem out_of_range_no_partial_witness :
    (∃ p ∈ [(⟨1, example_bad_proxy⟩ : (m : ℕ) × bond_similarity_proxy m)],
        ¬ proxy_ok example_sites p.2)
    ∧ bond_similarity_residuals example_sites [⟨1, example_bad_proxy⟩] = none
    ∧ ∀ g, bond_similarity_residual_sum example_sites
        [⟨1, example_bad_proxy⟩] g = none :=
  have hbad : ∃ p ∈ [(⟨1, example_bad_proxy⟩ :
      (m : ℕ) × bond_similarity_proxy m)], ¬ proxy_ok example_sites p.2 := by
    refine ⟨⟨1, example_bad_proxy⟩, List.mem_singleton.mpr rfl, ?_⟩
    intro hok
    have h7 := (hok 0).2
    norm_num [example_sites, example_bad_proxy] at h7
  ⟨hbad, out_of_range_no_partial example_sites _ hbad⟩

/-- C10: approx_equal(a, b, t) returns true exactly when the absolute
difference of a and b is at most t, and is symmetric in a and b. -/
theorem approx_equal_iff_abs_le (a b t : ℚ) (h : 0 ≤ t) :
    (Scitbx.approx_equal a b t = true ↔ |a - b| ≤ t)
    ∧ Scitbx.approx_equal a b t = Scitbx.approx_equal b a t :=
  ⟨approx_equal_true_iff a b t, approx_equal_comm a b t⟩

theorem approx_equal_iff_abs_le_witness :
    (0 : ℚ) ≤ 4
    ∧ ((Scitbx.approx_equal 3 5 4 = true ↔ |(3 : ℚ) - 5| ≤ 4)
      ∧ Scitbx.approx_equal 3 5 4 = Scitbx.approx_equal 5 3 4) :=
  ⟨by norm_num, approx_equal_iff_abs_le 3 5 4 (by norm_num)⟩

end GeometryRestraints
